import Mathlib

/-!
A verification development for the spuppy Sharepoint upload utility.

Strings are modelled as lists of characters (`Str`).  The filesystem the
`os.path` calls of `config.py` consult is modelled explicitly (`FS`): a
current working directory and sets of canonical absolute paths that are
regular files or directories, each canonical path being a list of plain
components.  Path strings are resolved against it with POSIX semantics:
`splitP` splits on the separator, `normComps` drops empty and dot
components and folds dot-dot components, and a trailing separator forces
the target to be a directory.
-/

/-- Strings of the modelled program are lists of characters. -/
abbrev Str := List Char

/-- Splitting a path string on the path separator, as CPython does inside
the `os.path` helpers. -/
def splitP (p : Str) : List Str := p.splitOn '/'

/-- Does the path string start with the separator (an absolute path)? -/
def isAbs (p : Str) : Bool := p.head? = some '/'

/-- One step of POSIX path normalisation over components: empty and `.`
components vanish, `..` removes the previous component (staying at the
root when there is none), anything else is appended. -/
def normStep (acc : List Str) (c : Str) : List Str :=
  if c = [] ∨ c = ['.'] then acc
  else if c = ['.', '.'] then acc.dropLast
  else acc ++ [c]

/-- Normalise a component list, as `os.path.normpath` does. -/
def normComps (cs : List Str) : List Str := cs.foldl normStep []

/-- Does the path string end with the separator?  Such a path only names a
filesystem object when that object is a directory. -/
def needsDir (p : Str) : Bool := p.getLast? = some '/'

/-- Printable form of a canonical absolute component list: components
joined by the separator. -/
def joinComps : List Str → Str
  | [] => []
  | [c] => c
  | c :: rest => c ++ '/' :: joinComps rest

/-- Canonical absolute component list rendered as an absolute path
string, the output format of `os.path.normpath` on absolute input. -/
def toStr (cs : List Str) : Str :=
  match cs with
  | [] => ['/']
  | _ => '/' :: joinComps cs

/-- The filesystem as the `os.path` calls of `config.py` observe it: a
canonical current working directory, the canonical paths of all regular
files and of all directories, and the directory listing `os.listdir`
returns. -/
structure FS where
  cwd : List Str
  files : List (List Str)
  dirs : List (List Str)
  listing : List Str → List Str

/-- Resolution of a path string to a canonical component list: relative
paths are anchored at the current working directory, then the components
are normalised.  This is the address `os.stat` would look up. -/
def FS.resolve (fs : FS) (p : Str) : List Str :=
  normComps ((if isAbs p then [] else fs.cwd) ++ splitP p)

/-- Model of `os.path.exists`: the empty string names nothing, a path with
a trailing separator only names a directory. -/
def FS.osExists (fs : FS) (p : Str) : Bool :=
  p ≠ [] &&
    (if needsDir p then fs.dirs.contains (fs.resolve p)
     else fs.files.contains (fs.resolve p) || fs.dirs.contains (fs.resolve p))

/-- Model of `os.path.isfile`. -/
def FS.osIsfile (fs : FS) (p : Str) : Bool :=
  p ≠ [] && !needsDir p && fs.files.contains (fs.resolve p)

/-- Model of `os.path.isdir`. -/
def FS.osIsdir (fs : FS) (p : Str) : Bool :=
  p ≠ [] && fs.dirs.contains (fs.resolve p)

/-- Model of `os.path.join` for two arguments: an absolute second argument
discards the first, otherwise a separator is inserted unless the first
argument is empty or already ends with one. -/
def osJoin (a b : Str) : Str :=
  if isAbs b then b
  else if a = [] then b
  else if a.getLast? = some '/' then a ++ b
  else a ++ '/' :: b

/-- Model of `os.path.abspath`: join with the current working directory
and normalise. -/
def FS.osAbspath (fs : FS) (p : Str) : Str := toStr (fs.resolve p)

/-- Model of `os.path.basename`: everything after the last separator. -/
def osBasename (p : Str) : Str := (splitP p).getLastD []

/-- Model of `os.listdir`. -/
def FS.osListdir (fs : FS) (p : Str) : List Str := fs.listing (fs.resolve p)

/-- Python truthiness of an optional string: absent and empty are falsy. -/
def truthy : Option Str → Bool
  | none => false
  | some s => s ≠ []

/-- Python truthiness of an optional string list. -/
def truthyL : Option (List Str) → Bool
  | none => false
  | some l => l ≠ []

/-- The `FilesConfig` instance state of `config.py`: the `-i` directory,
the file list, and the output folder name. -/
structure FilesConfig where
  path : Option Str
  files : Option (List Str)
  out_folder : Option Str
deriving DecidableEq

def dotStr : Str := ['.']

def msgAtLeastOne : Str := "at least one of -i or -f must be present".toList
def msgDoesNotExist : Str := " does not exist".toList
def msgNotADirectory : Str := " is not a directory".toList
def msgNotAFile : Str := " is not a file".toList
def msgOnPath : Str := " does not exist on path ".toList
def msgIllegal : Str := " contains illegal characters: only a-zA-Z0-9._- are allowed".toList

/-- Model of `FilesConfig.__init__`: split the raw comma-separated file
list, and default the output folder name to the basename of the absolute
directory path when a directory but no name was given. -/
def FilesConfig.init (fs : FS) (path files out_folder : Option Str) : FilesConfig :=
  { path := path
    files := if truthy files then some ((files.getD []).splitOn ',') else none
    out_folder :=
      if truthy out_folder then out_folder
      else if truthy path then some (osBasename (fs.osAbspath (path.getD [])))
      else none }

/-- Model of `FilesConfig._verify_path`. -/
def FilesConfig.verifyPath (fs : FS) (c : FilesConfig) : List Str :=
  if truthy c.path then
    if ¬ fs.osExists (c.path.getD []) then [c.path.getD [] ++ msgDoesNotExist]
    else if ¬ fs.osIsdir (c.path.getD []) then [c.path.getD [] ++ msgNotADirectory]
    else []
  else []

/-- The checks `FilesConfig._verify_files` performs for one entry of the
file list. -/
def FilesConfig.verifyFileEntry (fs : FS) (c : FilesConfig) (f : Str) : List Str :=
  if ¬ fs.osExists f then
    if truthy c.path ∧ ¬ fs.osExists (osJoin (c.path.getD []) f) then
      [f ++ msgOnPath ++ c.path.getD []]
    else if truthy c.path ∧ ¬ fs.osIsfile (osJoin (c.path.getD []) f) then
      [f ++ msgNotAFile]
    else if ¬ truthy c.path then
      [f ++ msgDoesNotExist]
    else []
  else if ¬ fs.osIsfile f then [f ++ msgNotAFile]
  else []

/-- Model of `FilesConfig._verify_files`. -/
def FilesConfig.verifyFiles (fs : FS) (c : FilesConfig) : List Str :=
  if ¬ truthyL c.files then []
  else (c.files.getD []).flatMap (c.verifyFileEntry fs)

/-- A character of the class `[a-zA-Z0-9._-]`. -/
def allowedChar (ch : Char) : Bool :=
  ('a' ≤ ch && ch ≤ 'z') || ('A' ≤ ch && ch ≤ 'Z') ||
    ('0' ≤ ch && ch ≤ '9') || ch == '.' || ch == '_' || ch == '-'

/-- Model of CPython `re.match` with the pattern of `_verify_out_folder`,
anchored as it runs: the greedy run of allowed characters from the start
must reach either the end of the string or the position just before a
final newline, because the dollar anchor also matches before a trailing
newline. -/
def reMatchOutFolder (s : Str) : Bool :=
  let run := s.takeWhile allowedChar
  decide (0 < run.length) &&
    (run.length = s.length || (run.length + 1 = s.length && s.getLast? = some '\n'))

/-- Model of `FilesConfig._verify_out_folder`. -/
def FilesConfig.verifyOutFolder (c : FilesConfig) : List Str :=
  if ¬ truthy c.out_folder then []
  else if ¬ reMatchOutFolder (c.out_folder.getD []) then
    [c.out_folder.getD [] ++ msgIllegal]
  else []

/-- The `local_path` of `FilesConfig._fix_paths`: the absolute form of
the given directory, or of the current directory when none was given. -/
def fixLocal (fs : FS) (c : FilesConfig) : Str :=
  if truthy c.path then fs.osAbspath (c.path.getD [])
  else fs.osAbspath dotStr

/-- The file list `FilesConfig._fix_paths` computes: every explicit entry
joined to the base directory, or the regular files the base directory
contains when no explicit list was given. -/
def fixFiles (fs : FS) (c : FilesConfig) : List Str :=
  if truthyL c.files then (c.files.getD []).map (osJoin (fixLocal fs c))
  else (fs.osListdir (fixLocal fs c)).filterMap (fun f =>
    if fs.osIsfile (osJoin (fixLocal fs c) f) then some (osJoin (fixLocal fs c) f)
    else none)

/-- Model of `FilesConfig._fix_paths`. -/
def FilesConfig.fixPaths (fs : FS) (c : FilesConfig) : FilesConfig :=
  { c with files := some (fixFiles fs c) }

/-- Model of `FilesConfig.verify`: collect the errors of all checks, drop
empty strings as the list comprehension of the source does, and normalise
the paths only when no error was found.  The mutated instance is returned
alongside the error list. -/
def FilesConfig.verify (fs : FS) (c : FilesConfig) : List Str × FilesConfig :=
  let ret :=
    (if ¬ truthy c.path ∧ ¬ truthyL c.files then [msgAtLeastOne] else [])
      ++ c.verifyPath fs ++ c.verifyFiles fs ++ c.verifyOutFolder
  let ret := ret.filter (· ≠ [])
  if ret = [] then (ret, c.fixPaths fs) else (ret, c)

/-- A YAML-like configuration document, as `yaml.safe_load` produces it:
scalars and string-keyed mappings. -/
inductive Yaml where
  | str (v : Str)
  | num (v : Int)
  | map (kvs : List (Str × Yaml))

/-- Mapping lookup. -/
def Yaml.get? : Yaml → Str → Option Yaml
  | .map kvs, k => kvs.lookup k
  | _, _ => none

def keySp : Str := "sp".toList
def keyTenant : Str := "tenant".toList
def keyClient : Str := "client".toList
def keySite : Str := "site".toList
def keySecret : Str := "secret".toList
def keyRuntime : Str := "runtime".toList
def keyChunkSize : Str := "chunk_size".toList

def msgNoConfigFile : Str := "FileNotFoundError: config.yaml".toList
def msgKeyError : Str := "KeyError: ".toList

/-- The `SharepointConfig` instance state of `config.py`. -/
structure SharepointConfig where
  tenant : Yaml
  client : Yaml
  site : Yaml
  secret : Yaml
  subsite : Option Str

/-- Model of `SharepointConfig.__init__`: open the fixed-location
document (`none` models a missing file, raising) and read the four
credential fields from the `sp` mapping; the subsite comes from the
caller.  The error value models the exception that propagates. -/
def SharepointConfig.load (doc : Option Yaml) (subsite : Option Str) :
    Except Str SharepointConfig :=
  match doc with
  | none => Except.error msgNoConfigFile
  | some conf =>
    match conf.get? keySp with
    | none => Except.error (msgKeyError ++ keySp)
    | some sp =>
      match sp.get? keyTenant with
      | none => Except.error (msgKeyError ++ keyTenant)
      | some tenant =>
        match sp.get? keyClient with
        | none => Except.error (msgKeyError ++ keyClient)
        | some client =>
          match sp.get? keySite with
          | none => Except.error (msgKeyError ++ keySite)
          | some site =>
            match sp.get? keySecret with
            | none => Except.error (msgKeyError ++ keySecret)
            | some secret =>
              Except.ok { tenant := tenant, client := client, site := site,
                          secret := secret, subsite := subsite }

/-- The `RuntimeConfig` instance state of `config.py`. -/
structure RuntimeConfig where
  debug : Bool
  chunk_size : Yaml

/-- Model of `RuntimeConfig.__init__`: the debug flag from the caller and
`chunk_size` from the `runtime` mapping of the document. -/
def RuntimeConfig.load (doc : Option Yaml) (debug : Bool) :
    Except Str RuntimeConfig :=
  match doc with
  | none => Except.error msgNoConfigFile
  | some conf =>
    match conf.get? keyRuntime with
    | none => Except.error (msgKeyError ++ keyRuntime)
    | some rt =>
      match rt.get? keyChunkSize with
      | none => Except.error (msgKeyError ++ keyChunkSize)
      | some cs => Except.ok { debug := debug, chunk_size := cs }

/-- Model of the progress callback `display_upload_progress` defined
inside `Sharepoint.upload_files`: whatever offset the client library
passes, the progress bar is advanced by the configured chunk size. -/
def display_upload_progress (chunk_size pbar _offset : Nat) : Nat :=
  pbar + chunk_size

/-- Observable events of a run: log lines of the `Logger` methods and the
remote calls issued to the Sharepoint collaborator. -/
inductive Ev where
  | logDebug (tag : Str)
  | logInfo (m : Str)
  | logError (m : Str)
  | logSuccess (m : Str)
  | logException (e : Str)
  | netAuth
  | netSiteQuery
  | netCreateFolder
  | netUpload (f : Str)
deriving DecidableEq

/-- Is the event a remote call? -/
def Ev.isNet : Ev → Bool
  | .netAuth | .netSiteQuery | .netCreateFolder | .netUpload _ => true
  | _ => false

/-- The file a `netUpload` event carries, if any. -/
def Ev.uploadOf : Ev → Option Str
  | .netUpload f => some f
  | _ => none

/-- Outcome of one remote call, as the office365 library surfaces it: a
normal result, a `ClientRequestException` carrying a server message, or
some other exception. -/
inductive ROut where
  | ok (v : Str)
  | cre (m : Str)
  | exc (e : Str)
deriving DecidableEq

/-- Did the remote call return normally? -/
def ROut.isOk : ROut → Bool
  | .ok _ => true
  | _ => false

/-- Behaviour of the remote Sharepoint collaborator for one run: the
outcome of token acquisition (`none` means success), of the site metadata
query, of the folder creation, and of the upload of each file. -/
structure Net where
  tokenExc : Option Str
  siteQ : ROut
  folderQ : ROut
  uploadQ : Str → ROut

def tagSpconf : Str := "spconf".toList
def tagRuntime : Str := "runtime".toList
def tagFconf : Str := "fconf".toList
def tagUrl : Str := "url".toList
def tagSp : Str := "sp".toList

def msgFileUpload : Str := "File upload: ".toList
def msgFile : Str := "File ".toList
def msgUploadedTo : Str := " uploaded to: ".toList
def msgSite : Str := "Site ".toList
def msgAddedFolder : Str := "Added folder: ".toList

/-- Model of `Sharepoint.upload_files`: strictly sequential; for each file
an info line and one upload call; a `ClientRequestException` is logged and
the method returns `False` at once; any other exception propagates; on
success the server-relative URL is logged and the next file follows. -/
def upload_files (net : Net) : List Str → List Ev × Except Str Bool
  | [] => ([], Except.ok true)
  | f :: rest =>
    let pre := [Ev.logInfo (msgFileUpload ++ osBasename f), Ev.netUpload f]
    match net.uploadQ f with
    | .ok url =>
      let r := upload_files net rest
      (pre ++ Ev.logSuccess (msgFile ++ f ++ msgUploadedTo ++ url) :: r.1, r.2)
    | .cre m => (pre ++ [Ev.logError m], Except.ok false)
    | .exc e => (pre, Except.error e)

/-- Model of `Sharepoint.verify_url`: one metadata query; a
`ClientRequestException` is logged and yields `False`, success is logged
and yields `True`, any other exception propagates. -/
def verify_url (net : Net) : List Ev × Except Str Bool :=
  match net.siteQ with
  | .ok info => ([Ev.netSiteQuery, Ev.logSuccess (msgSite ++ info)], Except.ok true)
  | .cre m => ([Ev.netSiteQuery, Ev.logError m], Except.ok false)
  | .exc e => ([Ev.netSiteQuery], Except.error e)

/-- Model of `Sharepoint.add_folder`, with the same error shape as
`verify_url`. -/
def add_folder (net : Net) : List Ev × Except Str Bool :=
  match net.folderQ with
  | .ok fol => ([Ev.netCreateFolder, Ev.logSuccess (msgAddedFolder ++ fol)], Except.ok true)
  | .cre m => ([Ev.netCreateFolder, Ev.logError m], Except.ok false)
  | .exc e => ([Ev.netCreateFolder], Except.error e)

/-- Model of `Sharepoint.get_token`: the debug line for the resolved URL,
then the token acquisition call, which either succeeds or raises. -/
def get_token (net : Net) (debug : Bool) : List Ev × Except Str Unit :=
  let evs := (if debug then [Ev.logDebug tagUrl] else []) ++ [Ev.netAuth]
  match net.tokenExc with
  | some e => (evs, Except.error e)
  | none => (evs, Except.ok ())

/-- The body of the `try` block of `Uploader.main`: authenticate, verify
the site URL (stopping on a logged server error), create the output
folder when one is set (stopping on a logged server error), then upload
the files.  The `Except` error is an exception escaping the block. -/
def tryBlock (net : Net) (debug : Bool) (fconf : FilesConfig) :
    List Ev × Except Str Unit :=
  let t := get_token net debug
  match t.2 with
  | Except.error e => (t.1, Except.error e)
  | Except.ok _ =>
    let base := t.1 ++ (if debug then [Ev.logDebug tagSp] else [])
    let v := verify_url net
    match v.2 with
    | Except.error e => (base ++ v.1, Except.error e)
    | Except.ok false => (base ++ v.1, Except.ok ())
    | Except.ok true =>
      let afterSite := base ++ v.1
      if truthy fconf.out_folder then
        let a := add_folder net
        match a.2 with
        | Except.error e => (afterSite ++ a.1, Except.error e)
        | Except.ok false => (afterSite ++ a.1, Except.ok ())
        | Except.ok true =>
          let u := upload_files net (fconf.files.getD [])
          (afterSite ++ a.1 ++ u.1, u.2.map (fun _ => ()))
      else
        let u := upload_files net (fconf.files.getD [])
        (afterSite ++ u.1, u.2.map (fun _ => ()))

/-- How a run of `Uploader.main` terminates: a normal return, or an
exception that nothing caught. -/
inductive MainOut where
  | normal
  | uncaught (e : Str)
deriving DecidableEq

/-- Model of `Uploader.main`: load the two configurations (their
exceptions propagate, nothing catches them), build and verify the
`FilesConfig`, log every validation error and return when there are any,
and otherwise run the remote stages inside the broad `try` whose handler
logs the exception. -/
def mainModel (doc : Option Yaml) (fs : FS) (net : Net) (debug : Bool)
    (subsite path files out : Option Str) : List Ev × MainOut :=
  match SharepointConfig.load doc subsite with
  | Except.error e => ([], MainOut.uncaught e)
  | Except.ok _ =>
    match RuntimeConfig.load doc debug with
    | Except.error e => ([], MainOut.uncaught e)
    | Except.ok _ =>
      let c := FilesConfig.init fs path files out
      let v := FilesConfig.verify fs c
      let dbg1 := if debug then [Ev.logDebug tagSpconf, Ev.logDebug tagRuntime,
                                 Ev.logDebug tagFconf] else []
      if v.1 = [] then
        let dbg2 := if debug then [Ev.logDebug tagFconf] else []
        let t := tryBlock net debug v.2
        match t.2 with
        | Except.ok _ => (dbg1 ++ dbg2 ++ t.1, MainOut.normal)
        | Except.error e => (dbg1 ++ dbg2 ++ t.1 ++ [Ev.logException e], MainOut.normal)
      else
        (dbg1 ++ v.1.map Ev.logError, MainOut.normal)

/-- Is a component plain: nonempty, not a dot form, free of the
separator?  Canonical paths are lists of plain components. -/
def plainComp (c : Str) : Bool :=
  c ≠ [] && c ≠ ['.'] && c ≠ ['.', '.'] && '/' ∉ c

/-- A canonical component list: every component is plain. -/
def canonComps (cs : List Str) : Bool := cs.all plainComp

/-! Concrete instances used by the counterexamples and witnesses. -/

/-- A filesystem whose working directory is `/home`, holding the regular
file `/home/bare.txt` and the directory `/home/d`. -/
def fsHome : FS :=
  { cwd := ["home".toList]
    files := [["home".toList, "bare.txt".toList]]
    dirs := [[], ["home".toList], ["home".toList, "d".toList]]
    listing := fun _ => [] }

/-- The upload request `-i d -f bare.txt` against `fsHome`: the entry
exists as a bare path in the working directory but not inside `d`. -/
def cBare : FilesConfig :=
  FilesConfig.init fsHome (some ("d".toList)) (some ("bare.txt".toList)) none

/-- A filesystem whose working directory is the root, holding the single
regular file `/f.txt`. -/
def fsPlain : FS :=
  { cwd := []
    files := [["f.txt".toList]]
    dirs := [[]]
    listing := fun _ => [] }

/-- A request whose output folder name ends in a newline. -/
def cNewline : FilesConfig :=
  FilesConfig.init fsPlain none (some ("f.txt".toList)) (some ("abc\n".toList))

/-- A request with a well-formed explicit output folder name. -/
def cOutGood : FilesConfig :=
  { path := none, files := none, out_folder := some ("Folder-1.x".toList) }

/-- A filesystem with the directory `/d` holding the file `/d/a.txt`. -/
def fsDir : FS :=
  { cwd := []
    files := [["d".toList, "a.txt".toList]]
    dirs := [[], ["d".toList]]
    listing := fun _ => [] }

/-- The request `-i d -f a.txt,` whose raw file list has a trailing
comma. -/
def cTrailing : FilesConfig :=
  FilesConfig.init fsDir (some ("d".toList)) (some ("a.txt,".toList)) none

/-- A filesystem with the directory `/u` holding the file `/u/a.txt`. -/
def fsU : FS :=
  { cwd := []
    files := [["u".toList, "a.txt".toList]]
    dirs := [[], ["u".toList]]
    listing := fun _ => [] }

/-- The well-behaved request `-i u -f a.txt` against `fsU`. -/
def cU : FilesConfig :=
  FilesConfig.init fsU (some ("u".toList)) (some ("a.txt".toList)) none

/-- A configuration document holding the credential fields under a
`sharepoint` mapping instead of the `sp` mapping the code reads. -/
def docSharepointNS : Yaml :=
  Yaml.map [("sharepoint".toList,
      Yaml.map [(keyTenant, Yaml.str ("t".toList)),
                (keyClient, Yaml.str ("c".toList)),
                (keySite, Yaml.str ("s".toList)),
                (keySecret, Yaml.str ("x".toList))]),
    (keyRuntime, Yaml.map [(keyChunkSize, Yaml.num 1000)])]

/-- A complete configuration document of the shape the code reads. -/
def docGood : Yaml :=
  Yaml.map [(keySp,
      Yaml.map [(keyTenant, Yaml.str ("t".toList)),
                (keyClient, Yaml.str ("c".toList)),
                (keySite, Yaml.str ("s".toList)),
                (keySecret, Yaml.str ("x".toList))]),
    (keyRuntime, Yaml.map [(keyChunkSize, Yaml.num 1000)])]

/-- A collaborator that uploads `a` and answers every other upload with a
server error. -/
def netOneFail : Net :=
  { tokenExc := none
    siteQ := ROut.ok ("S".toList)
    folderQ := ROut.ok ("F".toList)
    uploadQ := fun f => if f = "a".toList then ROut.ok ("u".toList)
               else ROut.cre ("boom".toList) }

/-- A collaborator whose token acquisition raises. -/
def netTokenExc : Net :=
  { tokenExc := some ("kaboom".toList)
    siteQ := ROut.ok ("S".toList)
    folderQ := ROut.ok ("F".toList)
    uploadQ := fun _ => ROut.ok ("u".toList) }

/-! Helper lemmas. -/

theorem takeWhile_append_of_all {α} (p : α → Bool) (u v : List α)
    (h : ∀ x ∈ u, p x = true) :
    (u ++ v).takeWhile p = u ++ v.takeWhile p := by
  induction u with
  | nil => rfl
  | cons a t ih =>
    have ha := h a (List.mem_cons_self a t)
    simp only [List.cons_append, List.takeWhile_cons, ha, if_true]
    rw [ih (fun x hx => h x (List.mem_cons_of_mem a hx))]

theorem reMatchOutFolder_iff (s : Str) :
    reMatchOutFolder s = true ↔
      ((s ≠ [] ∧ s.all allowedChar = true) ∨
        (s.getLast? = some '\n' ∧ s.dropLast ≠ [] ∧
          s.dropLast.all allowedChar = true)) := by
  constructor
  · intro h
    unfold reMatchOutFolder at h
    simp only [Bool.and_eq_true, Bool.or_eq_true, decide_eq_true_eq] at h
    obtain ⟨hpos, hlen⟩ := h
    rcases hlen with hlen | ⟨hlen, hlast⟩
    · left
      have heq : s.takeWhile allowedChar = s :=
        (List.takeWhile_sublist allowedChar).eq_of_length hlen
      refine ⟨?_, List.all_eq_true.mpr ?_⟩
      · intro hs
        rw [hs] at hpos
        simp at hpos
      · intro x hx
        rw [← heq] at hx
        exact List.mem_takeWhile_imp hx
    · right
      have hsplit : s.takeWhile allowedChar ++ s.dropWhile allowedChar = s :=
      List.takeWhile_append_dropWhile allowedChar s
      have hlend : (s.dropWhile allowedChar).length = 1 := by
        have := congrArg List.length hsplit
        simp only [List.length_append] at this
        omega
      obtain ⟨b, hb⟩ : ∃ b, s.dropWhile allowedChar = [b] := by
        cases hdw : s.dropWhile allowedChar with
        | nil => rw [hdw] at hlend; simp at hlend
        | cons x t =>
          rw [hdw] at hlend
          simp only [List.length_cons] at hlend
          have : t = [] := List.length_eq_zero.mp (by omega)
          exact ⟨x, by rw [this]⟩
      have hs2 : s = s.takeWhile allowedChar ++ [b] := by rw [← hb, hsplit]
      have hslast : s.getLast? = some b := by
        rw [hs2, List.getLast?_append_cons]
        rfl
      have hbn : b = '\n' := by
        rw [hslast] at hlast
        exact (Option.some_inj.mp hlast)
      have hdl : s.dropLast = s.takeWhile allowedChar := by
        conv_lhs => rw [hs2]
        simp
      refine ⟨hlast, ?_, ?_⟩
      · rw [hdl]
        intro hnil
        rw [hnil] at hpos
        simp at hpos
      · rw [hdl]
        exact List.all_eq_true.mpr (fun x hx => List.mem_takeWhile_imp hx)
  · intro h
    unfold reMatchOutFolder
    simp only [Bool.and_eq_true, Bool.or_eq_true, decide_eq_true_eq]
    rcases h with ⟨hne, hall⟩ | ⟨hlast, hdne, hdall⟩
    · have heq : s.takeWhile allowedChar = s :=
        List.takeWhile_eq_self_iff.mpr (fun x hx => List.all_eq_true.mp hall x hx)
      rw [heq]
      exact ⟨List.length_pos.mpr hne, Or.inl rfl⟩
    · have hs2 : s.dropLast ++ ['\n'] = s :=
        List.dropLast_append_getLast? '\n' hlast
      have hnl : allowedChar '\n' = false := by decide
      have hrun : s.takeWhile allowedChar = s.dropLast := by
        rw [← hs2, takeWhile_append_of_all allowedChar s.dropLast ['\n']
          (fun x hx => List.all_eq_true.mp hdall x hx)]
        simp [List.takeWhile_cons, hnl]
      constructor
      · rw [hrun]
        exact List.length_pos.mpr hdne
      · right
        refine ⟨?_, hlast⟩
        rw [hrun, ← hs2]
        simp

/-! Claim theorems. -/

/-- C9: on every invocation of the per-file progress callback, the
progress display advances by exactly the configured chunk size,
independently of the offset the client passes; the final chunk is not
special-cased. -/
theorem display_progress_fixed_increment (cs pbar o1 o2 : Nat) :
    display_upload_progress cs pbar o1 = pbar + cs ∧
      display_upload_progress cs pbar o1 = display_upload_progress cs pbar o2 :=
  ⟨rfl, rfl⟩

theorem if_pair_snd {α β : Type} [DecidableEq α] (r : List α) (a b : β) :
    (if r = [] then (r, a) else (r, b)).2 =
      if (if r = [] then (r, a) else (r, b)).1 = [] then a else b := by
  by_cases h : r = [] <;> simp [h]

/-- C2: when `verify` reports any error the request is left exactly as it
was; path normalisation is applied only when the error list is empty. -/
theorem verify_error_no_mutation (fs : FS) (c : FilesConfig) :
    (FilesConfig.verify fs c).2 =
      if (FilesConfig.verify fs c).1 = [] then FilesConfig.fixPaths fs c else c := by
  simp only [FilesConfig.verify]
  exact if_pair_snd _ _ _

/-- C6 counterexample: the output folder name `abc\n` contains a
character outside `[a-zA-Z0-9._-]`, yet the request passes validation
with no error, because the anchored pattern also matches before a
trailing newline. -/
theorem out_folder_newline_counterexample :
    (FilesConfig.verify fsPlain cNewline).1 = [] ∧
      cNewline.out_folder = some ("abc\n".toList) ∧
      '\n' ∈ "abc\n".toList ∧ allowedChar '\n' = false := by
  refine ⟨by decide, by decide, by decide, by decide⟩

/-- C6 (amended): a present output folder name passes validation exactly
when it is a string of letters, digits, `.`, `_`, `-`, or such a
nonempty string followed by one final newline; every other name draws
the illegal-character error. -/
theorem out_folder_charclass (c : FilesConfig) (s : Str)
    (h : c.out_folder = some s) (hne : s ≠ []) :
    (FilesConfig.verifyOutFolder c = [] ↔
      (s.all allowedChar = true ∨
        (s.getLast? = some '\n' ∧ s.dropLast ≠ [] ∧
          s.dropLast.all allowedChar = true))) := by
  have key := reMatchOutFolder_iff s
  by_cases hm : reMatchOutFolder s = true
  · have hv : FilesConfig.verifyOutFolder c = [] := by
      simp [FilesConfig.verifyOutFolder, h, truthy, hne, hm]
    rw [hv]
    exact iff_of_true rfl ((key.mp hm).elim (fun hx => Or.inl hx.2) Or.inr)
  · have hv : FilesConfig.verifyOutFolder c = [s ++ msgIllegal] := by
      simp [FilesConfig.verifyOutFolder, h, truthy, hne, hm]
    rw [hv]
    refine iff_of_false (by simp) ?_
    intro hr
    exact hm (key.mpr (hr.elim (fun hall => Or.inl ⟨hne, hall⟩) Or.inr))

/-- C6 witness: the amended characterisation instantiated at the explicit
name `Folder-1.x`. -/
theorem out_folder_charclass_witness :
    (FilesConfig.verifyOutFolder cOutGood = [] ↔
      (("Folder-1.x".toList).all allowedChar = true ∨
        (("Folder-1.x".toList).getLast? = some '\n' ∧
          ("Folder-1.x".toList).dropLast ≠ [] ∧
          ("Folder-1.x".toList).dropLast.all allowedChar = true))) :=
  out_folder_charclass cOutGood ("Folder-1.x".toList) rfl (by decide)

theorem append_ne_nil_r {α} (u v : List α) (h : v ≠ []) : u ++ v ≠ [] := by
  intro hx
  exact h (List.append_eq_nil.mp hx).2

theorem append_ne_nil_l {α} (u v : List α) (h : u ≠ []) : u ++ v ≠ [] := by
  intro hx
  exact h (List.append_eq_nil.mp hx).1

theorem msgNe_atLeastOne : msgAtLeastOne ≠ [] := by decide
theorem msgNe_doesNotExist : msgDoesNotExist ≠ [] := by decide
theorem msgNe_notADirectory : msgNotADirectory ≠ [] := by decide
theorem msgNe_notAFile : msgNotAFile ≠ [] := by decide
theorem msgNe_onPath : msgOnPath ≠ [] := by decide
theorem msgNe_illegal : msgIllegal ≠ [] := by decide

theorem if_pair_fst {α β : Type} [DecidableEq α] (r : List α) (a b : β) :
    (if r = [] then (r, a) else (r, b)).1 = r := by
  by_cases h : r = [] <;> simp [h]

/-- The error list `verify` returns, written out. -/
theorem verify_fst (fs : FS) (c : FilesConfig) :
    (FilesConfig.verify fs c).1 =
      ((if ¬ truthy c.path ∧ ¬ truthyL c.files then [msgAtLeastOne] else [])
        ++ c.verifyPath fs ++ c.verifyFiles fs ++ c.verifyOutFolder).filter (· ≠ []) := by
  simp only [FilesConfig.verify]
  exact if_pair_fst _ _ _

/-- Every message `_verify_path` emits is a nonempty string. -/
theorem verifyPath_mem_ne (fs : FS) (c : FilesConfig) :
    ∀ m ∈ c.verifyPath fs, m ≠ [] := by
  intro m hm
  unfold FilesConfig.verifyPath at hm
  split at hm
  · split at hm
    · simp at hm
      subst hm
      exact append_ne_nil_r _ _ msgNe_doesNotExist
    · split at hm
      · simp at hm
        subst hm
        exact append_ne_nil_r _ _ msgNe_notADirectory
      · simp at hm
  · simp at hm

/-- Every message `_verify_files` emits for one entry is a nonempty
string. -/
theorem verifyFileEntry_mem_ne (fs : FS) (c : FilesConfig) (f : Str) :
    ∀ m ∈ c.verifyFileEntry fs f, m ≠ [] := by
  intro m hm
  unfold FilesConfig.verifyFileEntry at hm
  split at hm
  · split at hm
    · simp at hm
      subst hm
      exact append_ne_nil_r _ _ (append_ne_nil_l _ _ msgNe_onPath)
    · split at hm
      · simp at hm
        subst hm
        exact append_ne_nil_r _ _ msgNe_notAFile
      · split at hm
        · simp at hm
          subst hm
          exact append_ne_nil_r _ _ msgNe_doesNotExist
        · simp at hm
  · split at hm
    · simp at hm
      subst hm
      exact append_ne_nil_r _ _ msgNe_notAFile
    · simp at hm

/-- Every message `_verify_files` emits is a nonempty string. -/
theorem verifyFiles_mem_ne (fs : FS) (c : FilesConfig) :
    ∀ m ∈ c.verifyFiles fs, m ≠ [] := by
  intro m hm
  unfold FilesConfig.verifyFiles at hm
  split at hm
  · simp at hm
  · obtain ⟨f, _, hmf⟩ := List.mem_flatMap.mp hm
    exact verifyFileEntry_mem_ne fs c f m hmf

/-- Every message `_verify_out_folder` emits is a nonempty string. -/
theorem verifyOutFolder_mem_ne (c : FilesConfig) :
    ∀ m ∈ c.verifyOutFolder, m ≠ [] := by
  intro m hm
  unfold FilesConfig.verifyOutFolder at hm
  split at hm
  · simp at hm
  · split at hm
    · simp at hm
      subst hm
      exact append_ne_nil_r _ _ msgNe_illegal
    · simp at hm

/-- When `verify` reports no error, every constituent check reported no
error, and at least one of the directory and the file list was present. -/
theorem verify_nil_parts (fs : FS) (c : FilesConfig)
    (h : (FilesConfig.verify fs c).1 = []) :
    (truthy c.path = true ∨ truthyL c.files = true) ∧
      c.verifyPath fs = [] ∧ c.verifyFiles fs = [] ∧ c.verifyOutFolder = [] := by
  rw [verify_fst] at h
  have hall : ∀ m ∈ ((if ¬ truthy c.path ∧ ¬ truthyL c.files then [msgAtLeastOne] else [])
      ++ c.verifyPath fs ++ c.verifyFiles fs ++ c.verifyOutFolder), m = [] := by
    intro m hm
    by_contra hne
    have hmem : m ∈ ((if ¬ truthy c.path ∧ ¬ truthyL c.files then [msgAtLeastOne] else [])
        ++ c.verifyPath fs ++ c.verifyFiles fs ++ c.verifyOutFolder).filter (· ≠ []) :=
      List.mem_filter.mpr ⟨hm, by simpa using hne⟩
    rw [h] at hmem
    exact (List.not_mem_nil m) hmem
  refine ⟨?_, ?_, ?_, ?_⟩
  · by_contra hor
    push_neg at hor
    have hcond : ¬ truthy c.path = true ∧ ¬ truthyL c.files = true :=
      ⟨fun hx => hor.1 hx, fun hx => hor.2 hx⟩
    have hmem : msgAtLeastOne ∈ ((if ¬ truthy c.path ∧ ¬ truthyL c.files
        then [msgAtLeastOne] else [])
        ++ c.verifyPath fs ++ c.verifyFiles fs ++ c.verifyOutFolder) := by
      simp only [List.mem_append]
      exact Or.inl (Or.inl (Or.inl (by simp [hcond.1, hcond.2])))
    exact msgNe_atLeastOne (hall _ hmem)
  · refine List.eq_nil_iff_forall_not_mem.mpr (fun m hm => ?_)
    refine (verifyPath_mem_ne fs c m hm) (hall m ?_)
    simp only [List.mem_append]
    exact Or.inl (Or.inl (Or.inr hm))
  · refine List.eq_nil_iff_forall_not_mem.mpr (fun m hm => ?_)
    refine (verifyFiles_mem_ne fs c m hm) (hall m ?_)
    simp only [List.mem_append]
    exact Or.inl (Or.inr hm)
  · refine List.eq_nil_iff_forall_not_mem.mpr (fun m hm => ?_)
    refine (verifyOutFolder_mem_ne c m hm) (hall m ?_)
    simp only [List.mem_append]
    exact Or.inr hm

/-- Joining any nonempty path with the empty entry yields a path that ends
with the separator. -/
theorem needsDir_osJoin_nil (p : Str) (hp : p ≠ []) :
    needsDir (osJoin p []) = true := by
  have h0 : osJoin p [] = if p.getLast? = some '/' then p ++ [] else p ++ ['/'] := by
    unfold osJoin
    rw [if_neg (by decide), if_neg hp]
  by_cases hl : p.getLast? = some '/'
  · rw [h0, if_pos hl]
    simp [needsDir, hl]
  · rw [h0, if_neg hl]
    simp [needsDir]

/-- The empty file list entry always draws some nonempty error message
from `_verify_files`, whatever the filesystem and request. -/
theorem verifyFileEntry_empty_nonnil (fs : FS) (c : FilesConfig) :
    ∃ m ∈ c.verifyFileEntry fs [], m ≠ [] := by
  have hex : fs.osExists ([] : Str) = false := by simp [FS.osExists]
  have hpne : truthy c.path = true → c.path.getD [] ≠ [] := by
    intro hp
    cases hcp : c.path with
    | none => rw [hcp] at hp; simp [truthy] at hp
    | some s =>
      rw [hcp] at hp
      simp only [truthy, ne_eq, decide_eq_true_eq] at hp
      simpa using hp
  by_cases hp : truthy c.path = true
  · by_cases hj : fs.osExists (osJoin (c.path.getD []) []) = true
    · have hjf : fs.osIsfile (osJoin (c.path.getD []) []) = false := by
        simp [FS.osIsfile, needsDir_osJoin_nil _ (hpne hp)]
      refine ⟨[] ++ msgNotAFile, ?_, append_ne_nil_r _ _ msgNe_notAFile⟩
      unfold FilesConfig.verifyFileEntry
      simp [hex, hp, hj, hjf]
    · refine ⟨[] ++ msgOnPath ++ c.path.getD [], ?_,
        append_ne_nil_l _ _ (append_ne_nil_r _ _ msgNe_onPath)⟩
      unfold FilesConfig.verifyFileEntry
      simp [hex, hp, hj]
  · refine ⟨[] ++ msgDoesNotExist, ?_, append_ne_nil_r _ _ msgNe_doesNotExist⟩
    unfold FilesConfig.verifyFileEntry
    simp [hex, hp]

/-- C10 counterexample: with `-i d -f a.txt,` against a filesystem where
the directory `d` exists and holds `a.txt`, construction splits the raw
list into an entry list containing the empty string and validation fails —
but with the is-not-a-file error, not a does-not-exist style error: the
empty entry joined to the directory names the directory itself. -/
theorem empty_entry_error_style_counterexample :
    cTrailing.files = some ["a.txt".toList, []] ∧
      (FilesConfig.verify fsDir cTrailing).1 = [msgNotAFile] ∧
      (∀ m ∈ (FilesConfig.verify fsDir cTrailing).1,
        ¬ (msgDoesNotExist <:+: m)) := by
  refine ⟨by decide, by decide, by decide⟩

/-- C10 (amended): a raw file list with an empty segment always fails
validation; the empty entry draws a does-not-exist style error when no
directory was given or the joined path does not exist, but an
is-not-a-file error when the given directory exists. -/
theorem empty_entry_always_fails (fs : FS) (c : FilesConfig) (l : List Str)
    (hf : c.files = some l) (hmem : [] ∈ l) :
    (FilesConfig.verify fs c).1 ≠ [] := by
  obtain ⟨m, hm, hne⟩ := verifyFileEntry_empty_nonnil fs c
  have hl : l ≠ [] := fun hx => by rw [hx] at hmem; exact (List.not_mem_nil _) hmem
  have hmf : m ∈ c.verifyFiles fs := by
    unfold FilesConfig.verifyFiles
    have ht : truthyL c.files = true := by rw [hf]; simpa [truthyL] using hl
    rw [if_neg (by simp [ht])]
    refine List.mem_flatMap.mpr ⟨[], ?_, hm⟩
    rw [hf]
    simpa using hmem
  intro hcontra
  have parts := verify_nil_parts fs c hcontra
  rw [parts.2.2.1] at hmf
  exact (List.not_mem_nil m) hmf

/-- C10 witness: the always-fails theorem instantiated at the trailing
comma request. -/
theorem empty_entry_always_fails_witness :
    (FilesConfig.verify fsDir cTrailing).1 ≠ [] :=
  empty_entry_always_fails fsDir cTrailing ["a.txt".toList, []] (by decide) (by decide)

/-- C5 counterexample: a configuration document carrying all four
credential fields under a `sharepoint` mapping (and `runtime.chunk_size`)
still fails to load, with a `KeyError` on `sp`: the code reads the `sp`
namespace, not a `sharepoint` namespace. -/
theorem config_sharepoint_namespace_counterexample :
    ((docSharepointNS.get? ("sharepoint".toList)).bind
        (fun sp => sp.get? keyTenant)).isSome = true ∧
      ((docSharepointNS.get? ("sharepoint".toList)).bind
        (fun sp => sp.get? keyClient)).isSome = true ∧
      ((docSharepointNS.get? ("sharepoint".toList)).bind
        (fun sp => sp.get? keySite)).isSome = true ∧
      ((docSharepointNS.get? ("sharepoint".toList)).bind
        (fun sp => sp.get? keySecret)).isSome = true ∧
      SharepointConfig.load (some docSharepointNS) none =
        Except.error (msgKeyError ++ keySp) :=
  ⟨rfl, rfl, rfl, rfl, rfl⟩

/-- C5 (amended): configuration loading reads tenant, client, site and
secret from the `sp` namespace and chunk_size from the `runtime`
namespace; it fails whenever the file is missing or any required key is
absent, and on success every field is exactly the looked-up value — no
field has a default. -/
theorem config_load_characterisation (doc : Option Yaml) (ss : Option Str)
    (debug : Bool) :
    (SharepointConfig.load none ss = Except.error msgNoConfigFile) ∧
    (RuntimeConfig.load none debug = Except.error msgNoConfigFile) ∧
    (∀ conf sp t cl si se, doc = some conf →
      conf.get? keySp = some sp →
      sp.get? keyTenant = some t → sp.get? keyClient = some cl →
      sp.get? keySite = some si → sp.get? keySecret = some se →
      SharepointConfig.load doc ss =
        Except.ok { tenant := t, client := cl, site := si, secret := se,
                    subsite := ss }) ∧
    (∀ conf, doc = some conf →
      (conf.get? keySp = none ∨ ∃ sp, conf.get? keySp = some sp ∧
        (sp.get? keyTenant = none ∨ sp.get? keyClient = none ∨
         sp.get? keySite = none ∨ sp.get? keySecret = none)) →
      ∃ e, SharepointConfig.load doc ss = Except.error e) ∧
    (∀ conf rt cs, doc = some conf → conf.get? keyRuntime = some rt →
      rt.get? keyChunkSize = some cs →
      RuntimeConfig.load doc debug = Except.ok { debug := debug, chunk_size := cs }) ∧
    (∀ conf, doc = some conf →
      (conf.get? keyRuntime = none ∨ ∃ rt, conf.get? keyRuntime = some rt ∧
        rt.get? keyChunkSize = none) →
      ∃ e, RuntimeConfig.load doc debug = Except.error e) := by
  refine ⟨rfl, rfl, ?_, ?_, ?_, ?_⟩
  · intro conf sp t cl si se hdoc hsp ht hcl hsi hse
    subst hdoc
    simp [SharepointConfig.load, hsp, ht, hcl, hsi, hse]
  · intro conf hdoc hmiss
    subst hdoc
    rcases hmiss with hsp | ⟨sp, hsp, hk⟩
    · exact ⟨msgKeyError ++ keySp, by simp [SharepointConfig.load, hsp]⟩
    · cases ht : sp.get? keyTenant with
      | none => exact ⟨msgKeyError ++ keyTenant, by simp [SharepointConfig.load, hsp, ht]⟩
      | some t =>
        cases hcl : sp.get? keyClient with
        | none =>
          exact ⟨msgKeyError ++ keyClient, by simp [SharepointConfig.load, hsp, ht, hcl]⟩
        | some cl =>
          cases hsi : sp.get? keySite with
          | none =>
            exact ⟨msgKeyError ++ keySite,
              by simp [SharepointConfig.load, hsp, ht, hcl, hsi]⟩
          | some si =>
            cases hse : sp.get? keySecret with
            | none =>
              exact ⟨msgKeyError ++ keySecret,
                by simp [SharepointConfig.load, hsp, ht, hcl, hsi, hse]⟩
            | some se => rcases hk with h | h | h | h <;> simp_all
  · intro conf rt cs hdoc hrt hcs
    subst hdoc
    simp [RuntimeConfig.load, hrt, hcs]
  · intro conf hdoc hmiss
    subst hdoc
    rcases hmiss with hrt | ⟨rt, hrt, hcs⟩
    · exact ⟨msgKeyError ++ keyRuntime, by simp [RuntimeConfig.load, hrt]⟩
    · exact ⟨msgKeyError ++ keyChunkSize, by simp [RuntimeConfig.load, hrt, hcs]⟩

/-- C7: uploads run strictly sequentially in list order; when the upload
of a file draws a server error after a prefix of successful uploads, the
error is logged, the method returns `False` at once, and the upload calls
issued are exactly the prefix and the failing file — every later file is
skipped. -/
theorem upload_stops_at_first_failure (net : Net) (pre : List Str) (f : Str)
    (post : List Str) (m : Str)
    (hpre : ∀ g ∈ pre, (net.uploadQ g).isOk = true)
    (hf : net.uploadQ f = ROut.cre m) :
    (upload_files net (pre ++ f :: post)).2 = Except.ok false ∧
      Ev.logError m ∈ (upload_files net (pre ++ f :: post)).1 ∧
      (upload_files net (pre ++ f :: post)).1.filterMap Ev.uploadOf = pre ++ [f] := by
  induction pre with
  | nil =>
    simp only [List.nil_append]
    refine ⟨?_, ?_, ?_⟩ <;> simp [upload_files, hf, Ev.uploadOf]
  | cons g t ih =>
    have hg := hpre g (List.mem_cons_self g t)
    obtain ⟨u, hu⟩ : ∃ u, net.uploadQ g = ROut.ok u := by
      cases hq : net.uploadQ g with
      | ok u => exact ⟨u, rfl⟩
      | cre m2 => rw [hq] at hg; simp [ROut.isOk] at hg
      | exc e => rw [hq] at hg; simp [ROut.isOk] at hg
    have iht := ih (fun x hx => hpre x (List.mem_cons_of_mem g hx))
    simp only [List.cons_append]
    refine ⟨?_, ?_, ?_⟩
    · simp only [upload_files, hu]
      exact iht.1
    · simp only [upload_files, hu]
      simp only [List.mem_append, List.mem_cons]
      exact Or.inr (Or.inr (by simpa using iht.2.1))
    · simp only [upload_files, hu]
      simp [List.filterMap_append, Ev.uploadOf, iht.2.2]

/-- C7 witness: with a collaborator that uploads `a` and rejects `b`, the
run over `[a, b, c]` uploads exactly `a` then `b`, logs the error and
returns; `c` is never attempted. -/
theorem upload_stops_at_first_failure_witness :
    (upload_files netOneFail (["a".toList] ++ "b".toList :: ["c".toList])).2 =
        Except.ok false ∧
      Ev.logError ("boom".toList) ∈
        (upload_files netOneFail (["a".toList] ++ "b".toList :: ["c".toList])).1 ∧
      (upload_files netOneFail
          (["a".toList] ++ "b".toList :: ["c".toList])).1.filterMap Ev.uploadOf =
        ["a".toList] ++ ["b".toList] :=
  upload_stops_at_first_failure netOneFail ["a".toList] ("b".toList) ["c".toList]
    ("boom".toList) (by decide) (by decide)

/-- C3: when validation of the upload request fails, main logs every
collected error, terminates normally, and issues no remote call at all —
no authentication, site query, folder creation or upload. -/
theorem main_validation_failure_no_network (doc : Option Yaml) (fs : FS) (net : Net)
    (debug : Bool) (ss path files out : Option Str) (spc : SharepointConfig)
    (rt : RuntimeConfig)
    (hsp : SharepointConfig.load doc ss = Except.ok spc)
    (hrt : RuntimeConfig.load doc debug = Except.ok rt)
    (hv : (FilesConfig.verify fs (FilesConfig.init fs path files out)).1 ≠ []) :
    (mainModel doc fs net debug ss path files out).2 = MainOut.normal ∧
      (∀ m ∈ (FilesConfig.verify fs (FilesConfig.init fs path files out)).1,
        Ev.logError m ∈ (mainModel doc fs net debug ss path files out).1) ∧
      (∀ e ∈ (mainModel doc fs net debug ss path files out).1, e.isNet = false) := by
  have hmain : mainModel doc fs net debug ss path files out =
      ((if debug then [Ev.logDebug tagSpconf, Ev.logDebug tagRuntime,
          Ev.logDebug tagFconf] else []) ++
        (FilesConfig.verify fs (FilesConfig.init fs path files out)).1.map Ev.logError,
        MainOut.normal) := by
    unfold mainModel
    rw [hsp, hrt]
    dsimp only
    rw [if_neg hv]
  rw [hmain]
  refine ⟨rfl, ?_, ?_⟩
  · intro m hm
    simp only [List.mem_append]
    exact Or.inr (List.mem_map_of_mem Ev.logError hm)
  · intro e he
    rcases List.mem_append.mp he with h1 | h2
    · by_cases hd : debug = true
      · rw [if_pos hd] at h1
        simp only [List.mem_cons, List.not_mem_nil, or_false] at h1
        rcases h1 with h | h | h <;> subst h <;> rfl
      · rw [if_neg hd] at h1
        simp at h1
    · obtain ⟨m2, _, rfl⟩ := List.mem_map.mp h2
      rfl

/-- C3 witness: the no-network theorem instantiated at a request with
neither directory nor file list. -/
theorem main_validation_failure_no_network_witness :
    (mainModel (some docGood) fsPlain netOneFail false none none none none).2 =
        MainOut.normal ∧
      (∀ m ∈ (FilesConfig.verify fsPlain (FilesConfig.init fsPlain none none none)).1,
        Ev.logError m ∈
          (mainModel (some docGood) fsPlain netOneFail false none none none none).1) ∧
      (∀ e ∈ (mainModel (some docGood) fsPlain netOneFail false none none none none).1,
        e.isNet = false) :=
  main_validation_failure_no_network (some docGood) fsPlain netOneFail false
    none none none none
    ⟨Yaml.str ("t".toList), Yaml.str ("c".toList), Yaml.str ("s".toList),
      Yaml.str ("x".toList), none⟩
    ⟨false, Yaml.num 1000⟩ rfl rfl (by decide)

/-- C8 counterexample: with the configuration file missing, the
configuration load raises before the try block; the run ends in an
unhandled exception and not a single line is logged — the top-level
catch-all does not absorb configuration errors. -/
theorem main_config_error_uncaught_counterexample :
    mainModel none fsPlain netOneFail false none none (some ("x".toList)) none =
      ([], MainOut.uncaught msgNoConfigFile) := rfl

/-- C8 (amended): once both configuration loads have succeeded, main never
terminates with an unhandled exception: any exception escaping the
authenticate, verify-site, ensure-folder or upload stages is absorbed by
the broad handler and logged; but exceptions of the configuration-loading
stage are outside the handler and propagate. -/
theorem main_absorbs_stage_exceptions (doc : Option Yaml) (fs : FS) (net : Net)
    (debug : Bool) (ss path files out : Option Str) (spc : SharepointConfig)
    (rt : RuntimeConfig)
    (hsp : SharepointConfig.load doc ss = Except.ok spc)
    (hrt : RuntimeConfig.load doc debug = Except.ok rt) :
    (mainModel doc fs net debug ss path files out).2 = MainOut.normal ∧
      (∀ e, (FilesConfig.verify fs (FilesConfig.init fs path files out)).1 = [] →
        (tryBlock net debug
            (FilesConfig.verify fs (FilesConfig.init fs path files out)).2).2 =
          Except.error e →
        Ev.logException e ∈ (mainModel doc fs net debug ss path files out).1) := by
  by_cases hv : (FilesConfig.verify fs (FilesConfig.init fs path files out)).1 = []
  · cases ht : (tryBlock net debug
        (FilesConfig.verify fs (FilesConfig.init fs path files out)).2).2 with
    | ok u =>
      have hmain : mainModel doc fs net debug ss path files out =
          ((if debug then [Ev.logDebug tagSpconf, Ev.logDebug tagRuntime,
              Ev.logDebug tagFconf] else []) ++
            (if debug then [Ev.logDebug tagFconf] else []) ++
            (tryBlock net debug
              (FilesConfig.verify fs (FilesConfig.init fs path files out)).2).1,
            MainOut.normal) := by
        unfold mainModel
        rw [hsp, hrt]
        dsimp only
        rw [if_pos hv, ht]
      rw [hmain]
      refine ⟨rfl, ?_⟩
      intro e _ he
      exact absurd he (by simp)
    | error e =>
      have hmain : mainModel doc fs net debug ss path files out =
          ((if debug then [Ev.logDebug tagSpconf, Ev.logDebug tagRuntime,
              Ev.logDebug tagFconf] else []) ++
            (if debug then [Ev.logDebug tagFconf] else []) ++
            (tryBlock net debug
              (FilesConfig.verify fs (FilesConfig.init fs path files out)).2).1 ++
            [Ev.logException e],
            MainOut.normal) := by
        unfold mainModel
        rw [hsp, hrt]
        dsimp only
        rw [if_pos hv, ht]
      rw [hmain]
      refine ⟨rfl, ?_⟩
      intro e2 _ he2
      injection he2 with h4
      subst h4
      simp
  · have hmain : mainModel doc fs net debug ss path files out =
        ((if debug then [Ev.logDebug tagSpconf, Ev.logDebug tagRuntime,
            Ev.logDebug tagFconf] else []) ++
          (FilesConfig.verify fs (FilesConfig.init fs path files out)).1.map Ev.logError,
          MainOut.normal) := by
      unfold mainModel
      rw [hsp, hrt]
      dsimp only
      rw [if_neg hv]
    rw [hmain]
    exact ⟨rfl, fun e hveq _ => absurd hveq hv⟩

/-- C8 witness: the amended theorem instantiated at a valid request with a
collaborator whose token acquisition raises. -/
theorem main_absorbs_stage_exceptions_witness :
    (mainModel (some docGood) fsU netTokenExc false none (some ("u".toList))
        (some ("a.txt".toList)) none).2 = MainOut.normal ∧
      (∀ e, (FilesConfig.verify fsU (FilesConfig.init fsU (some ("u".toList))
          (some ("a.txt".toList)) none)).1 = [] →
        (tryBlock netTokenExc false
            (FilesConfig.verify fsU (FilesConfig.init fsU (some ("u".toList))
              (some ("a.txt".toList)) none)).2).2 = Except.error e →
        Ev.logException e ∈ (mainModel (some docGood) fsU netTokenExc false none
          (some ("u".toList)) (some ("a.txt".toList)) none).1) :=
  main_absorbs_stage_exceptions (some docGood) fsU netTokenExc false none
    (some ("u".toList)) (some ("a.txt".toList)) none
    ⟨Yaml.str ("t".toList), Yaml.str ("c".toList), Yaml.str ("s".toList),
      Yaml.str ("x".toList), none⟩
    ⟨false, Yaml.num 1000⟩ rfl rfl

theorem osIsfile_imp_osExists (fs : FS) (p : Str) (h : fs.osIsfile p = true) :
    fs.osExists p = true := by
  unfold FS.osIsfile at h
  unfold FS.osExists
  simp only [Bool.and_eq_true, Bool.not_eq_true'] at h
  obtain ⟨⟨h1, h2⟩, h3⟩ := h
  have h3m : fs.resolve p ∈ fs.files := by simpa using h3
  simp [h1, h2, h3m]

theorem isAbs_toStr (cs : List Str) : isAbs (toStr cs) = true := by
  unfold toStr isAbs
  cases cs <;> simp

theorem toStr_ne_nil (cs : List Str) : toStr cs ≠ [] := by
  unfold toStr
  cases cs <;> simp

theorem osJoin_of_abs (a b : Str) (h : isAbs b = true) : osJoin a b = b := by
  unfold osJoin
  rw [if_pos h]

theorem isAbs_append (a b : Str) (hne : a ≠ []) : isAbs (a ++ b) = isAbs a := by
  cases a with
  | nil => exact absurd rfl hne
  | cons x t => rfl

theorem isAbs_osJoin (a b : Str) (ha : isAbs a = true) (hne : a ≠ []) :
    isAbs (osJoin a b) = true := by
  unfold osJoin
  by_cases hb : isAbs b = true
  · rw [if_pos hb]
    exact hb
  · rw [if_neg hb, if_neg hne]
    by_cases hl : a.getLast? = some '/'
    · rw [if_pos hl, isAbs_append a b hne]
      exact ha
    · rw [if_neg hl, isAbs_append a ('/' :: b) hne]
      exact ha

theorem fixLocal_isAbs (fs : FS) (c : FilesConfig) : isAbs (fixLocal fs c) = true := by
  unfold fixLocal
  split <;> exact isAbs_toStr _

theorem fixLocal_ne_nil (fs : FS) (c : FilesConfig) : fixLocal fs c ≠ [] := by
  unfold fixLocal
  split <;> exact toStr_ne_nil _

/-- Every entry `_fix_paths` produces is an absolute path string. -/
theorem fixFiles_abs (fs : FS) (c : FilesConfig) :
    ∀ f ∈ fixFiles fs c, isAbs f = true := by
  intro f hf
  unfold fixFiles at hf
  split at hf
  · obtain ⟨x, _, rfl⟩ := List.mem_map.mp hf
    exact isAbs_osJoin _ _ (fixLocal_isAbs fs c) (fixLocal_ne_nil fs c)
  · obtain ⟨a, _, ha⟩ := List.mem_filterMap.mp hf
    split at ha
    · cases ha
      exact isAbs_osJoin _ _ (fixLocal_isAbs fs c) (fixLocal_ne_nil fs c)
    · cases ha

theorem verifyPath_eq_of_path (fs : FS) (c d : FilesConfig) (h : c.path = d.path) :
    c.verifyPath fs = d.verifyPath fs := by
  unfold FilesConfig.verifyPath
  rw [h]

theorem verifyOutFolder_eq_of_out (c d : FilesConfig) (h : c.out_folder = d.out_folder) :
    c.verifyOutFolder = d.verifyOutFolder := by
  unfold FilesConfig.verifyOutFolder
  rw [h]

theorem flatMap_eq_nil_of_forall {α β} (l : List α) (f : α → List β)
    (h : ∀ x ∈ l, f x = []) : l.flatMap f = [] := by
  induction l with
  | nil => rfl
  | cons a t ih =>
    simp [List.flatMap_cons, h a (List.mem_cons_self a t),
      ih (fun x hx => h x (List.mem_cons_of_mem a hx))]

theorem map_eq_self_of_forall {α} (l : List α) (f : α → α) (h : ∀ x ∈ l, f x = x) :
    l.map f = l := by
  induction l with
  | nil => rfl
  | cons a t ih =>
    simp [h a (List.mem_cons_self a t),
      ih (fun x hx => h x (List.mem_cons_of_mem a hx))]

/-- An entry that is an existing regular file draws no error from the
per-entry check. -/
theorem verifyFileEntry_of_isfile (fs : FS) (c : FilesConfig) (f : Str)
    (h : fs.osIsfile f = true) : c.verifyFileEntry fs f = [] := by
  unfold FilesConfig.verifyFileEntry
  rw [if_neg (by simp [osIsfile_imp_osExists fs f h]), if_neg (by simp [h])]

theorem fixFiles_of_truthyL (fs : FS) (d : FilesConfig) (h : truthyL d.files = true) :
    fixFiles fs d = (d.files.getD []).map (osJoin (fixLocal fs d)) := by
  unfold fixFiles
  rw [if_pos (by simp [h])]

theorem fixFiles_of_not_truthyL (fs : FS) (d : FilesConfig)
    (h : truthyL d.files = false) :
    fixFiles fs d = (fs.osListdir (fixLocal fs d)).filterMap (fun f =>
      if fs.osIsfile (osJoin (fixLocal fs d) f) then some (osJoin (fixLocal fs d) f)
      else none) := by
  unfold fixFiles
  rw [if_neg (by simp [h])]

/-- C4 counterexample: the request `-i d -f bare.txt` of `fsHome` passes
validation (the entry exists as a bare path in the working directory),
but a second call to `verify` on the normalised request fails: the entry
was rewritten to `join(base, entry)`, which does not exist. -/
theorem verify_not_idempotent_counterexample :
    (FilesConfig.verify fsHome cBare).1 = [] ∧
      (FilesConfig.verify fsHome (FilesConfig.verify fsHome cBare).2).1 ≠ [] := by
  refine ⟨by decide, by decide⟩

/-- C4 (amended): on a request that passed validation and whose resolved
entries all are existing regular files, `verify` is idempotent: a second
call reports no error and changes nothing — in particular no path prefix
is re-appended to the already absolute entries. -/
theorem verify_idempotent (fs : FS) (c : FilesConfig)
    (h1 : (FilesConfig.verify fs c).1 = [])
    (h2 : ∀ f ∈ ((FilesConfig.verify fs c).2.files.getD []), fs.osIsfile f = true) :
    FilesConfig.verify fs (FilesConfig.verify fs c).2 = ([], (FilesConfig.verify fs c).2) := by
  have hfix : (FilesConfig.verify fs c).2 = c.fixPaths fs := by
    rw [verify_error_no_mutation, if_pos h1]
  obtain ⟨hor, hp, _, ho⟩ := verify_nil_parts fs c h1
  rw [hfix] at h2 ⊢
  have hpath : (c.fixPaths fs).path = c.path := rfl
  have hout : (c.fixPaths fs).out_folder = c.out_folder := rfl
  have hc1f : (c.fixPaths fs).files = some (fixFiles fs c) := rfl
  have hloc : fixLocal fs (c.fixPaths fs) = fixLocal fs c := by
    unfold fixLocal
    rw [hpath]
  have e1 : (if ¬ truthy (c.fixPaths fs).path ∧ ¬ truthyL (c.fixPaths fs).files
      then [msgAtLeastOne] else []) = [] := by
    rw [if_neg]
    rintro ⟨ha, hb⟩
    rcases hor with h | h
    · rw [hpath] at ha
      exact ha h
    · obtain ⟨l, hl, hlne⟩ : ∃ l, c.files = some l ∧ l ≠ [] := by
        cases hx : c.files with
        | none => rw [hx] at h; simp [truthyL] at h
        | some l =>
          rw [hx] at h
          exact ⟨l, rfl, by simpa [truthyL] using h⟩
      have hval : fixFiles fs c = l.map (osJoin (fixLocal fs c)) := by
        rw [fixFiles_of_truthyL fs c (by rw [hl]; simpa [truthyL] using hlne), hl]
        simp
      apply hb
      have hmne : l.map (osJoin (fixLocal fs c)) ≠ [] := by
        intro hx
        exact hlne (List.map_eq_nil_iff.mp hx)
      rw [hc1f, hval]
      simpa [truthyL] using hmne
  have e2 : (c.fixPaths fs).verifyPath fs = [] := by
    rw [verifyPath_eq_of_path fs (c.fixPaths fs) c hpath]
    exact hp
  have e3 : (c.fixPaths fs).verifyFiles fs = [] := by
    unfold FilesConfig.verifyFiles
    by_cases ht : truthyL (c.fixPaths fs).files = true
    · rw [if_neg (by simp [ht])]
      exact flatMap_eq_nil_of_forall _ _
        (fun x hx => verifyFileEntry_of_isfile fs (c.fixPaths fs) x (h2 x hx))
    · rw [if_pos (by simpa using ht)]
  have e4 : (c.fixPaths fs).verifyOutFolder = [] := by
    rw [verifyOutFolder_eq_of_out (c.fixPaths fs) c hout]
    exact ho
  have herr : (FilesConfig.verify fs (c.fixPaths fs)).1 = [] := by
    rw [verify_fst, e1, e2, e3, e4]
    rfl
  have hff : fixFiles fs (c.fixPaths fs) = fixFiles fs c := by
    by_cases hne : fixFiles fs c = []
    · have hcf : truthyL c.files = false := by
        by_contra hx
        have hx2 : truthyL c.files = true := by simpa using hx
        obtain ⟨l, hl, hlne⟩ : ∃ l, c.files = some l ∧ l ≠ [] := by
          cases hy : c.files with
          | none => rw [hy] at hx2; simp [truthyL] at hx2
          | some l =>
            rw [hy] at hx2
            exact ⟨l, rfl, by simpa [truthyL] using hx2⟩
        have hval : fixFiles fs c = l.map (osJoin (fixLocal fs c)) := by
          rw [fixFiles_of_truthyL fs c (by rw [hl]; simpa [truthyL] using hlne), hl]
          simp
        rw [hval] at hne
        exact hlne (List.map_eq_nil_iff.mp hne)
      have hz : truthyL (c.fixPaths fs).files = false := by
        rw [hc1f, hne]
        simp [truthyL]
      rw [fixFiles_of_not_truthyL fs (c.fixPaths fs) hz,
        fixFiles_of_not_truthyL fs c hcf, hloc]
    · have ht1 : truthyL (c.fixPaths fs).files = true := by
        rw [hc1f]
        simpa [truthyL] using hne
      rw [fixFiles_of_truthyL fs (c.fixPaths fs) ht1, hc1f]
      simp only [Option.getD_some]
      rw [hloc]
      exact map_eq_self_of_forall _ _
        (fun f hf => osJoin_of_abs _ _ (fixFiles_abs fs c f hf))
  have hfix1 : (c.fixPaths fs).fixPaths fs = c.fixPaths fs := by
    show ({ c.fixPaths fs with files := some (fixFiles fs (c.fixPaths fs)) } :
      FilesConfig) = c.fixPaths fs
    rw [hff]
    rfl
  have hsnd : (FilesConfig.verify fs (c.fixPaths fs)).2 = c.fixPaths fs := by
    rw [verify_error_no_mutation, if_pos herr, hfix1]
  calc FilesConfig.verify fs (c.fixPaths fs)
      = ((FilesConfig.verify fs (c.fixPaths fs)).1,
         (FilesConfig.verify fs (c.fixPaths fs)).2) := rfl
    _ = ([], c.fixPaths fs) := by rw [herr, hsnd]

/-- C4 witness: the idempotence theorem instantiated at the well-behaved
request `-i u -f a.txt`. -/
theorem verify_idempotent_witness :
    FilesConfig.verify fsU (FilesConfig.verify fsU cU).2 =
      ([], (FilesConfig.verify fsU cU).2) :=
  verify_idempotent fsU cU (by decide) (by decide)

theorem modifyHead_append_left {α} (f : α → α) (u v : List α) (hu : u ≠ []) :
    (u ++ v).modifyHead f = u.modifyHead f ++ v := by
  cases u with
  | nil => exact absurd rfl hu
  | cons a t => rfl

/-- Splitting at a separator occurrence splits the parts independently. -/
theorem splitOnP_append_sep {α} (P : α → Bool) (sep : α) (hsep : P sep = true)
    (u v : List α) : (u ++ sep :: v).splitOnP P = u.splitOnP P ++ v.splitOnP P := by
  induction u with
  | nil =>
    rw [List.nil_append, List.splitOnP_cons, if_pos hsep]
    rfl
  | cons a t ih =>
    by_cases ha : P a = true
    · rw [List.cons_append, List.splitOnP_cons, if_pos ha, ih,
        List.splitOnP_cons, if_pos ha]
      rfl
    · rw [List.cons_append, List.splitOnP_cons, if_neg (by simp [ha]), ih,
        modifyHead_append_left _ _ _ (List.splitOnP_ne_nil P t),
        List.splitOnP_cons, if_neg (by simp [ha])]

/-- No part produced by `splitOnP` contains an element satisfying the
predicate. -/
theorem mem_splitOnP_not {α} (P : α → Bool) :
    ∀ (l : List α), ∀ x ∈ l.splitOnP P, ∀ a ∈ x, P a = false := by
  intro l
  induction l with
  | nil =>
    intro x hx a ha
    rw [List.splitOnP_nil] at hx
    rcases List.mem_singleton.mp hx with rfl
    simp at ha
  | cons b t ih =>
    intro x hx a ha
    rw [List.splitOnP_cons] at hx
    by_cases hb : P b = true
    · rw [if_pos hb] at hx
      rcases List.mem_cons.mp hx with rfl | hx2
      · simp at ha
      · exact ih x hx2 a ha
    · rw [if_neg (by simp [hb])] at hx
      cases hsp : t.splitOnP P with
      | nil => exact absurd hsp (List.splitOnP_ne_nil P t)
      | cons h0 t0 =>
        rw [hsp, List.modifyHead_cons] at hx
        rcases List.mem_cons.mp hx with rfl | hx2
        · rcases List.mem_cons.mp ha with rfl | ha2
          · simpa using hb
          · exact ih h0 (by rw [hsp]; exact List.mem_cons_self h0 t0) a ha2
        · exact ih x (by rw [hsp]; exact List.mem_cons_of_mem h0 hx2) a ha

theorem splitP_append_cons (u v : Str) : splitP (u ++ '/' :: v) = splitP u ++ splitP v := by
  show (u ++ '/' :: v).splitOnP (· == '/') =
    u.splitOnP (· == '/') ++ v.splitOnP (· == '/')
  exact splitOnP_append_sep _ '/' (by simp) u v

theorem mem_splitP_no_sep (p : Str) : ∀ x ∈ splitP p, '/' ∉ x := by
  intro x hx hmem
  have := mem_splitOnP_not (· == '/') p x hx '/' hmem
  simp at this

theorem splitP_single (r : Str) (h : '/' ∉ r) : splitP r = [r] := by
  show r.splitOnP (· == '/') = [r]
  refine List.splitOnP_eq_single _ _ ?_
  intro a ha hP
  simp only [beq_iff_eq] at hP
  subst hP
  exact h ha

theorem splitP_cons_sep (s : Str) : splitP ('/' :: s) = [] :: splitP s := by
  have := splitP_append_cons [] s
  simpa using this

theorem normStep_nil_arg (A : List Str) : normStep A [] = A := by
  unfold normStep
  rw [if_pos (Or.inl rfl)]

theorem normStep_dot_arg (A : List Str) : normStep A ['.'] = A := by
  unfold normStep
  rw [if_pos (Or.inr rfl)]

theorem normStep_plain (A : List Str) (c : Str) (h : plainComp c = true) :
    normStep A c = A ++ [c] := by
  unfold plainComp at h
  simp only [Bool.and_eq_true, Bool.not_eq_true', ne_eq, decide_eq_true_eq] at h
  unfold normStep
  rw [if_neg (by rintro (hx | hx) <;> simp_all), if_neg (by simp_all)]

theorem foldl_normStep_plain (l : List Str) (h : ∀ x ∈ l, plainComp x = true) :
    ∀ (A : List Str), l.foldl normStep A = A ++ l := by
  induction l with
  | nil => intro A; simp
  | cons c t ih =>
    intro A
    rw [List.foldl_cons, normStep_plain A c (h c (List.mem_cons_self c t)),
      ih (fun x hx => h x (List.mem_cons_of_mem c hx))]
    simp

theorem canonComps_dropLast (A : List Str) (h : canonComps A = true) :
    canonComps A.dropLast = true := by
  unfold canonComps at h ⊢
  refine List.all_eq_true.mpr (fun x hx => List.all_eq_true.mp h x ?_)
  exact List.dropLast_subset A hx

theorem canonComps_foldl (l : List Str) (hl : ∀ x ∈ l, '/' ∉ x) :
    ∀ (A : List Str), canonComps A = true → canonComps (l.foldl normStep A) = true := by
  induction l with
  | nil => intro A hA; exact hA
  | cons c t ih =>
    intro A hA
    have hc := hl c (List.mem_cons_self c t)
    rw [List.foldl_cons]
    apply ih (fun x hx => hl x (List.mem_cons_of_mem c hx))
    unfold normStep
    split
    · exact hA
    · split
      · exact canonComps_dropLast A hA
      · rename_i hni hdd
        unfold canonComps at hA ⊢
        simp only [List.all_append, Bool.and_eq_true]
        refine ⟨hA, ?_⟩
        have hplain : plainComp c = true := by
          unfold plainComp
          push_neg at hni
          simp only [Bool.and_eq_true, ne_eq, decide_eq_true_eq]
          exact ⟨⟨⟨hni.1, hni.2⟩, hdd⟩, hc⟩
        simp [hplain]

theorem canonComps_resolve (fs : FS) (p : Str) (hwf : canonComps fs.cwd = true) :
    canonComps (fs.resolve p) = true := by
  unfold FS.resolve normComps
  apply canonComps_foldl
  · intro x hx
    rcases List.mem_append.mp hx with h | h
    · split at h
      · simp at h
      · have hp := List.all_eq_true.mp hwf x h
        unfold plainComp at hp
        simp only [Bool.and_eq_true, ne_eq, decide_eq_true_eq] at hp
        exact hp.2
    · exact mem_splitP_no_sep p x h
  · rfl

theorem splitP_joinComps :
    ∀ (R : List Str), R ≠ [] → (∀ x ∈ R, '/' ∉ x) → splitP (joinComps R) = R := by
  intro R
  induction R with
  | nil => intro h; exact absurd rfl h
  | cons r rs ih =>
    intro _ hno
    cases rs with
    | nil => exact splitP_single r (hno r (List.mem_cons_self r []))
    | cons r2 rs2 =>
      show splitP (r ++ '/' :: joinComps (r2 :: rs2)) = r :: r2 :: rs2
      rw [splitP_append_cons, splitP_single r (hno r (List.mem_cons_self r _)),
        ih (by simp) (fun x hx => hno x (List.mem_cons_of_mem r hx))]
      rfl

theorem splitP_toStr (R : List Str) (hR : canonComps R = true) (hne : R ≠ []) :
    splitP (toStr R) = [] :: R := by
  have hj : toStr R = '/' :: joinComps R := by
    unfold toStr
    cases R with
    | nil => exact absurd rfl hne
    | cons r rs => rfl
  rw [hj, splitP_cons_sep, splitP_joinComps R hne]
  intro x hx
  have hp := List.all_eq_true.mp hR x hx
  unfold plainComp at hp
  simp only [Bool.and_eq_true, ne_eq, decide_eq_true_eq] at hp
  exact hp.2

theorem resolve_toStr (fs : FS) (R : List Str) (hR : canonComps R = true) :
    fs.resolve (toStr R) = R := by
  unfold FS.resolve
  rw [if_pos (isAbs_toStr R)]
  by_cases hne : R = []
  · subst hne
    rfl
  · rw [splitP_toStr R hR hne]
    unfold normComps
    rw [List.nil_append, List.foldl_cons, normStep_nil_arg]
    exact foldl_normStep_plain R (fun x hx => List.all_eq_true.mp hR x hx) []

/-- Resolving a join continues the resolution of the base with the
components of the relative second argument. -/
theorem resolve_osJoin (fs : FS) (p x : Str) (hp : p ≠ []) (hx : isAbs x = false) :
    fs.resolve (osJoin p x) = (splitP x).foldl normStep (fs.resolve p) := by
  unfold osJoin
  rw [if_neg (by simp [hx]), if_neg hp]
  by_cases hl : p.getLast? = some '/'
  · rw [if_pos hl]
    obtain ⟨q, hq⟩ : ∃ q, p = q ++ ['/'] := by
      refine ⟨p.dropLast, ?_⟩
      exact (List.dropLast_append_getLast? '/' (by simpa using hl)).symm
    subst hq
    have hql : (q ++ ['/']) ++ x = q ++ '/' :: x := by simp
    rw [hql]
    unfold FS.resolve
    have habs : isAbs (q ++ '/' :: x) = isAbs (q ++ ['/']) := by
      cases q with
      | nil => rfl
      | cons a t => rfl
    rw [habs]
    have hsq : splitP (q ++ ['/']) = splitP q ++ [[]] := by
      have h0 := splitP_append_cons q []
      simpa using h0
    rw [splitP_append_cons, hsq]
    unfold normComps
    rw [← List.append_assoc, List.foldl_append, ← List.append_assoc,
      List.foldl_append, List.foldl_append, List.foldl_cons, List.foldl_nil,
      normStep_nil_arg, List.foldl_append]
  · rw [if_neg hl]
    unfold FS.resolve
    rw [isAbs_append p ('/' :: x) hp, splitP_append_cons]
    unfold normComps
    rw [← List.append_assoc, List.foldl_append, List.foldl_append]

theorem osJoin_ne_nil (p x : Str) (hp : p ≠ []) : osJoin p x ≠ [] := by
  unfold osJoin
  by_cases hb : isAbs x = true
  · rw [if_pos hb]
    unfold isAbs at hb
    cases x with
    | nil => simp at hb
    | cons a t => simp
  · rw [if_neg hb, if_neg hp]
    by_cases hl : p.getLast? = some '/'
    · rw [if_pos hl]
      exact append_ne_nil_l _ _ hp
    · rw [if_neg hl]
      exact append_ne_nil_l _ _ hp

theorem getLast?_osJoin (p x : Str) (hp : p ≠ []) (hx : x ≠ []) :
    (osJoin p x).getLast? = x.getLast? := by
  unfold osJoin
  by_cases hb : isAbs x = true
  · rw [if_pos hb]
  · rw [if_neg hb, if_neg hp]
    by_cases hl : p.getLast? = some '/'
    · rw [if_pos hl]
      exact List.getLast?_append_of_ne_nil p hx
    · rw [if_neg hl]
      rw [show p ++ '/' :: x = (p ++ ['/']) ++ x by simp]
      exact List.getLast?_append_of_ne_nil _ hx

theorem needsDir_osJoin (p x : Str) (hp : p ≠ []) (hx : x ≠ []) :
    needsDir (osJoin p x) = needsDir x := by
  unfold needsDir
  rw [getLast?_osJoin p x hp hx]

/-- Joining to the absolute form of the base resolves to the same address
as joining to the base itself, so existence checks agree. -/
theorem osIsfile_osJoin_abspath (fs : FS) (p x : Str)
    (hwf : canonComps fs.cwd = true) (hp : p ≠ []) :
    fs.osIsfile (osJoin (fs.osAbspath p) x) = fs.osIsfile (osJoin p x) := by
  by_cases hb : isAbs x = true
  · rw [osJoin_of_abs _ _ hb, osJoin_of_abs _ _ hb]
  · have hb2 : isAbs x = false := by simpa using hb
    have hap : fs.osAbspath p ≠ [] := toStr_ne_nil _
    have hres : fs.resolve (fs.osAbspath p) = fs.resolve p := by
      unfold FS.osAbspath
      exact resolve_toStr fs _ (canonComps_resolve fs p hwf)
    have h1 : fs.resolve (osJoin (fs.osAbspath p) x) = fs.resolve (osJoin p x) := by
      rw [resolve_osJoin fs _ x hap hb2, resolve_osJoin fs p x hp hb2, hres]
    by_cases hx : x = []
    · subst hx
      have n1 := needsDir_osJoin_nil _ hp
      have n2 := needsDir_osJoin_nil _ hap
      simp [FS.osIsfile, n1, n2]
    · have n1 := needsDir_osJoin p x hp hx
      have n2 := needsDir_osJoin _ x hap hx
      unfold FS.osIsfile
      rw [h1, n1, n2]
      simp [osJoin_ne_nil p x hp, osJoin_ne_nil _ x hap]

/-- Joining an entry to the current directory string `.` checks the same
address as the bare entry itself. -/
theorem osIsfile_osJoin_dot (fs : FS) (x : Str) :
    fs.osIsfile (osJoin dotStr x) = fs.osIsfile x := by
  by_cases hb : isAbs x = true
  · rw [osJoin_of_abs _ _ hb]
  · have hb2 : isAbs x = false := by simpa using hb
    by_cases hx : x = []
    · subst hx
      have n1 := needsDir_osJoin_nil dotStr (by decide)
      simp [FS.osIsfile, n1]
    · have hj : osJoin dotStr x = '.' :: '/' :: x := by
        unfold osJoin dotStr
        rw [if_neg (by simp [hb2]), if_neg (by decide), if_neg (by decide)]
        simp
      rw [hj]
      have hres : fs.resolve ('.' :: '/' :: x) = fs.resolve x := by
        unfold FS.resolve
        have ha1 : isAbs ('.' :: '/' :: x) = false := by rfl
        rw [ha1, hb2]
        have h2 : splitP ('.' :: '/' :: x) = [['.']] ++ splitP x := by
          have h0 := splitP_append_cons ['.'] x
          rw [List.singleton_append] at h0
          rw [h0, splitP_single ['.'] (by decide)]
        rw [h2]
        unfold normComps
        rw [← List.append_assoc, List.foldl_append, List.foldl_append,
          List.foldl_cons, List.foldl_nil, normStep_dot_arg, List.foldl_append]
      have hnd : needsDir ('.' :: '/' :: x) = needsDir x := by
        unfold needsDir
        have h0 := List.getLast?_append_of_ne_nil (['.', '/'] : Str) hx
        simp only [List.cons_append, List.nil_append] at h0
        rw [h0]
      unfold FS.osIsfile
      rw [hres, hnd]
      simp [hx]

theorem forall_of_flatMap_eq_nil {α β} (l : List α) (f : α → List β)
    (h : l.flatMap f = []) : ∀ x ∈ l, f x = [] := by
  intro x hx
  by_contra hne
  obtain ⟨m, hm⟩ : ∃ m, m ∈ f x := by
    cases hfx : f x with
    | nil => exact absurd hfx hne
    | cons a t => exact ⟨a, List.mem_cons_self a t⟩
  have hmem : m ∈ l.flatMap f := List.mem_flatMap.mpr ⟨x, hx, hm⟩
  rw [h] at hmem
  exact (List.not_mem_nil m) hmem

theorem truthy_getD_ne (o : Option Str) (h : truthy o = true) : o.getD [] ≠ [] := by
  cases o with
  | none => simp [truthy] at h
  | some s => simpa [truthy] using h

/-- When the per-entry checks all passed, each entry of the explicit list
passed its own check. -/
theorem verifyFiles_nil_entries (fs : FS) (c : FilesConfig)
    (h : c.verifyFiles fs = []) (ht : truthyL c.files = true) :
    ∀ x ∈ c.files.getD [], c.verifyFileEntry fs x = [] := by
  unfold FilesConfig.verifyFiles at h
  rw [if_neg (by simp [ht])] at h
  exact forall_of_flatMap_eq_nil _ _ h

/-- With no directory given, an entry passes the per-entry check exactly
via the exists-as-is branch: it is an existing regular file. -/
theorem verifyFileEntry_nil_no_path (fs : FS) (c : FilesConfig) (x : Str)
    (hp : truthy c.path = false) (h : c.verifyFileEntry fs x = []) :
    fs.osIsfile x = true := by
  unfold FilesConfig.verifyFileEntry at h
  by_cases he : fs.osExists x = true
  · rw [if_neg (by simp [he])] at h
    by_cases hf : fs.osIsfile x = true
    · exact hf
    · rw [if_pos (by simp [hf])] at h
      exact absurd h (by simp)
  · rw [if_pos (by simp [he])] at h
    rw [if_neg (by simp [hp]), if_neg (by simp [hp]), if_pos (by simp [hp])] at h
    exact absurd h (by simp)

/-- C1 counterexample: the request `-i d -f bare.txt` on `fsHome` passes
validation through the exists-as-is branch (the bare entry exists in the
working directory), and normalisation rewrites the entry as
`join(base, entry)` — a path that does not refer to an existing regular
file. -/
theorem exists_as_is_rewrite_counterexample :
    (FilesConfig.verify fsHome cBare).1 = [] ∧
      fsHome.osExists ("bare.txt".toList) = true ∧
      fsHome.osIsfile ("bare.txt".toList) = true ∧
      (FilesConfig.verify fsHome cBare).2.files = some ["/home/d/bare.txt".toList] ∧
      fsHome.osIsfile ("/home/d/bare.txt".toList) = false := by
  refine ⟨by decide, by decide, by decide, by decide, by decide⟩

/-- C1 (amended): after successful validation every entry of the resolved
file list refers to an existing regular file, provided that when a
directory was given each explicitly listed entry names an existing
regular file relative to that directory (absolute entries included); an
entry accepted only via the exists-as-is branch while a different base
directory was given is excluded, since its rewritten form
`join(base, entry)` need not exist. -/
theorem verify_resolved_entries_exist (fs : FS) (c : FilesConfig)
    (hwf : canonComps fs.cwd = true)
    (h1 : (FilesConfig.verify fs c).1 = [])
    (h2 : truthy c.path = true →
      ∀ x ∈ c.files.getD [], fs.osIsfile (osJoin (c.path.getD []) x) = true) :
    ∀ f ∈ ((FilesConfig.verify fs c).2.files.getD []), fs.osIsfile f = true := by
  have hfix : (FilesConfig.verify fs c).2 = c.fixPaths fs := by
    rw [verify_error_no_mutation, if_pos h1]
  rw [hfix]
  intro f hf
  have hf2 : f ∈ fixFiles fs c := by simpa using hf
  obtain ⟨_, _, hvf, _⟩ := verify_nil_parts fs c h1
  by_cases ht : truthyL c.files = true
  · rw [fixFiles_of_truthyL fs c ht] at hf2
    obtain ⟨x, hx, rfl⟩ := List.mem_map.mp hf2
    by_cases hcp : truthy c.path = true
    · have hloc : fixLocal fs c = fs.osAbspath (c.path.getD []) := by
        unfold fixLocal
        rw [if_pos hcp]
      rw [hloc, osIsfile_osJoin_abspath fs _ x hwf (truthy_getD_ne c.path hcp)]
      exact h2 hcp x hx
    · have hloc : fixLocal fs c = fs.osAbspath dotStr := by
        unfold fixLocal
        rw [if_neg hcp]
      rw [hloc, osIsfile_osJoin_abspath fs dotStr x hwf (by decide),
        osIsfile_osJoin_dot fs x]
      exact verifyFileEntry_nil_no_path fs c x (by simpa using hcp)
        (verifyFiles_nil_entries fs c hvf ht x hx)
  · rw [fixFiles_of_not_truthyL fs c (by simpa using ht)] at hf2
    obtain ⟨a, _, ha⟩ := List.mem_filterMap.mp hf2
    split at ha
    · rename_i hguard
      cases ha
      exact hguard
    · cases ha

/-- C1 witness: the amended theorem instantiated at the request
`-i u -f a.txt`, whose resolved list holds exactly `/u/a.txt` — an
existing regular file. -/
theorem verify_resolved_entries_exist_witness :
    fsU.osIsfile ("/u/a.txt".toList) = true :=
  verify_resolved_entries_exist fsU cU (by decide) (by decide) (by decide)
    ("/u/a.txt".toList) (by decide)
